import Mathlib

/-!
Shallow embedding of the mmq package (mmq/mmq.py): the Potential family,
the Criterion and QuadCriterion operations, and the mmmg and mmcg solvers,
with theorems checking the specification against this embedding.

Arrays are embedded as functions `Fin k → ℝ`; the vectorization glue
(`vect`, `reshape`) is value-preserving, so solver state is kept as flat
vectors and the native shape is carried alongside as a `List ℕ`.
-/

noncomputable section

/-- Data of the `Potential` abstract base class: the stored limit constant
`inf` (documented in the source as lim_{u→0} φ'(u)/u), the elementwise value
and the elementwise gradient. -/
structure Potential where
  inf : ℝ
  value : ℝ → ℝ
  gradient : ℝ → ℝ

/-- The `Square` potential as coded: φ(u) = u²/2, gradient u, inf = 1. -/
def Square : Potential where
  inf := 1
  value := fun u => u ^ 2 / 2
  gradient := fun u => u

/-- The `Hyperbolic` potential as coded: value √(1 + u²/δ²) − 1; the coded
gradient is the product (u/δ²)·√(1 + u²/δ²) (source line 613); the
constructor first assigns inf = 1/δ² and then immediately overwrites it with
1/(2δ) (source lines 603-604, comment "To check"), so the stored field is
the overwrite 1/(2δ). -/
def Hyperbolic (delta : ℝ) : Potential where
  inf := 1 / (2 * delta)
  value := fun u => Real.sqrt (1 + u ^ 2 / delta ^ 2) - 1
  gradient := fun u => (u / delta ^ 2) * Real.sqrt (1 + u ^ 2 / delta ^ 2)

/-- The `Huber` potential as coded: value is u² when |u| ≤ δ and |u|
otherwise (source line 640); gradient is 2u when |u| ≤ δ and 2δ·sign(u)
otherwise (source lines 643-645); inf = 1 (source line 634). -/
def Huber (delta : ℝ) : Potential where
  inf := 1
  value := fun u => if |u| ≤ delta then u ^ 2 else |u|
  gradient := fun u => if |u| ≤ delta then 2 * u else 2 * delta * Real.sign u

/-- Base-class `gr_coeffs` (source lines 514-519): start from aux = inf·ones,
then overwrite the entries at the mask `point != 0` with
gradient(point)/point computed on the masked (hence nonzero) entries only. -/
def Potential.gr_coeffs (φ : Potential) {k : ℕ} (u : Fin k → ℝ) : Fin k → ℝ :=
  fun i => if u i ≠ 0 then φ.gradient (u i) / u i else φ.inf

/-- Helper: the base-class gr_coeffs of `Square` is the constant 1. -/
theorem square_gr_coeffs {k : ℕ} (u : Fin k → ℝ) (i : Fin k) :
    Square.gr_coeffs u i = 1 := by
  by_cases h : u i = 0 <;> simp [Potential.gr_coeffs, Square, h, div_self]

/-- C9: for the Square potential, every entry of the base-class gr_coeffs is
exactly 1, including at entries where the input is 0 (where the stored
inf = 1 is used). -/
theorem square_gr_coeffs_eq_one {k : ℕ} (u : Fin k → ℝ) (i : Fin k) :
    Square.gr_coeffs u i = 1 :=
  square_gr_coeffs u i

/-- C8: the base-class gr_coeffs is total: each entry equals
gradient(u_i)/u_i when u_i ≠ 0 and equals the stored constant inf when
u_i = 0; the division is only ever taken over the masked nonzero entries. -/
theorem gr_coeffs_total (φ : Potential) {k : ℕ} (u : Fin k → ℝ) (i : Fin k) :
    φ.gr_coeffs u i = if u i = 0 then φ.inf else φ.gradient (u i) / u i := by
  by_cases h : u i = 0 <;> simp [Potential.gr_coeffs, h]

/-- C1: the coded Hyperbolic(1) gradient at u = 1 is √2, while the derivative
of its value there is 1/√2 = (u/δ²)/√(1 + u²/δ²); the two differ, so
`gradient` is not the derivative of `value` (the source multiplies by the
square root instead of dividing by it). -/
theorem hyperbolic_gradient_not_derivative :
    (Hyperbolic 1).gradient 1 = Real.sqrt 2 ∧
      HasDerivAt (Hyperbolic 1).value (1 / Real.sqrt 2) 1 ∧
      (Hyperbolic 1).gradient 1 ≠ 1 / Real.sqrt 2 := by
  have hs2 : Real.sqrt 2 ≠ 0 := by
    have : (0 : ℝ) < Real.sqrt 2 := Real.sqrt_pos.mpr (by norm_num)
    exact ne_of_gt this
  have hval : (Hyperbolic 1).gradient 1 = Real.sqrt 2 := by
    show (1 / (1 : ℝ) ^ 2) * Real.sqrt (1 + 1 ^ 2 / 1 ^ 2) = Real.sqrt 2
    norm_num
  refine ⟨hval, ?_, ?_⟩
  · -- derivative of u ↦ √(1 + u²/1²) − 1 at u = 1
    have hinner : HasDerivAt (fun u : ℝ => 1 + u ^ 2 / (1 : ℝ) ^ 2) 2 1 := by
      have hp : HasDerivAt (fun u : ℝ => u ^ 2) 2 1 := by
        simpa using hasDerivAt_pow 2 (1 : ℝ)
      have := (hp.div_const ((1 : ℝ) ^ 2)).const_add 1
      simpa using this
    have hne : (1 : ℝ) + 1 ^ 2 / (1 : ℝ) ^ 2 ≠ 0 := by norm_num
    have hsqrt := hinner.sqrt hne
    have h2 : Real.sqrt (1 + 1 ^ 2 / (1 : ℝ) ^ 2) = Real.sqrt 2 := by norm_num
    have : HasDerivAt (fun u : ℝ => Real.sqrt (1 + u ^ 2 / (1 : ℝ) ^ 2))
        (1 / Real.sqrt 2) 1 := by
      convert hsqrt using 1
      rw [h2]
      field_simp
    simpa [Hyperbolic] using this.sub_const 1
  · rw [hval]
    intro h
    have h2 : Real.sqrt 2 * Real.sqrt 2 = 2 := Real.mul_self_sqrt (by norm_num)
    have h3 : (1 / Real.sqrt 2) * Real.sqrt 2 = 1 := by
      field_simp
    nth_rewrite 1 [h] at h2
    rw [h3] at h2
    norm_num at h2

/-- C2: for Huber(2), the coded value is u² on |u| ≤ 2 and |u| beyond, which
jumps at u = 2 (value 4, but values just above 2 are near 2), so value is not
continuous at |u| = δ and is not δ-scaled there; moreover at u = 3 (where
|u| ≠ δ) the coded value has derivative 1 while the coded gradient returns 4,
so gradient is not the derivative of value. -/
theorem huber_value_gradient_mismatch :
    (Huber 2).value 2 = 4 ∧
      ¬ ContinuousAt (Huber 2).value 2 ∧
      HasDerivAt (Huber 2).value 1 3 ∧
      (Huber 2).gradient 3 = 4 ∧ (4 : ℝ) ≠ 1 := by
  have hval2 : (Huber 2).value 2 = 4 := by
    show (if |(2 : ℝ)| ≤ 2 then (2 : ℝ) ^ 2 else |(2 : ℝ)|) = 4
    rw [if_pos (by norm_num)]
    norm_num
  have habove : ∀ x : ℝ, x ∈ Set.Ioo (2 : ℝ) 4 → (Huber 2).value x = x := by
    intro x hx
    show (if |x| ≤ 2 then x ^ 2 else |x|) = x
    have hx2 : (2 : ℝ) < x := hx.1
    have hpos : (0 : ℝ) < x := lt_trans (by norm_num) hx2
    rw [if_neg (by rw [abs_of_pos hpos]; exact not_le.mpr hx2), abs_of_pos hpos]
  refine ⟨hval2, ?_, ?_, ?_, by norm_num⟩
  · -- discontinuity at 2: along 𝓝[>] 2 the value tends to 2, not to 4
    intro hc
    have h1 : Filter.Tendsto (Huber 2).value (nhdsWithin 2 (Set.Ioi 2)) (nhds 4) := by
      have h0 : Filter.Tendsto (Huber 2).value (nhds 2) (nhds ((Huber 2).value 2)) :=
        hc.tendsto
      rw [hval2] at h0
      exact h0.mono_left
        (nhdsWithin_le_nhds : nhdsWithin (2 : ℝ) (Set.Ioi 2) ≤ nhds 2)
    have h2 : Filter.Tendsto (Huber 2).value (nhdsWithin 2 (Set.Ioi 2)) (nhds 2) := by
      have hmem : Set.Ioo (2 : ℝ) 4 ∈ nhdsWithin 2 (Set.Ioi 2) :=
        Ioo_mem_nhdsWithin_Ioi ⟨le_refl 2, by norm_num⟩
      have heq : (Huber 2).value =ᶠ[nhdsWithin 2 (Set.Ioi 2)] fun x => x :=
        Filter.eventuallyEq_of_mem hmem habove
      have hid : Filter.Tendsto (fun x : ℝ => x) (nhdsWithin 2 (Set.Ioi 2)) (nhds 2) :=
        Filter.tendsto_id.mono_left nhdsWithin_le_nhds
      exact Filter.Tendsto.congr' heq.symm hid
    have : (4 : ℝ) = 2 := tendsto_nhds_unique h1 h2
    norm_num at this
  · -- derivative 1 at u = 3: value agrees with the identity near 3
    have hmem : Set.Ioo (2 : ℝ) 4 ∈ nhds (3 : ℝ) :=
      Ioo_mem_nhds (by norm_num) (by norm_num)
    have heq : (Huber 2).value =ᶠ[nhds (3 : ℝ)] fun x => x :=
      Filter.eventuallyEq_of_mem hmem habove
    exact (hasDerivAt_id 3).congr_of_eventuallyEq heq
  · show (if |(3 : ℝ)| ≤ 2 then 2 * 3 else 2 * 2 * Real.sign 3) = 4
    rw [if_neg (by rw [abs_of_pos (by norm_num : (0:ℝ) < 3)]; norm_num)]
    rw [Real.sign_of_pos (by norm_num : (0:ℝ) < 3)]
    norm_num

/-- C3: the stored inf does not equal lim_{u→0} gradient(u)/u. For Huber(1)
the gradient is 2u near 0, so gradient(u)/u → 2 while inf = 1; for
Hyperbolic(1) gradient(u)/u = √(1 + u²) → 1 while the stored (overwritten)
inf = 1/2. In both cases the limit exists and differs from the stored inf. -/
theorem inf_not_limit_of_gradient_ratio :
    Filter.Tendsto (fun u : ℝ => (Huber 1).gradient u / u)
        (nhdsWithin 0 {(0 : ℝ)}ᶜ) (nhds 2) ∧
      (Huber 1).inf = 1 ∧
      ¬ Filter.Tendsto (fun u : ℝ => (Huber 1).gradient u / u)
        (nhdsWithin 0 {(0 : ℝ)}ᶜ) (nhds ((Huber 1).inf)) ∧
      Filter.Tendsto (fun u : ℝ => (Hyperbolic 1).gradient u / u)
        (nhdsWithin 0 {(0 : ℝ)}ᶜ) (nhds 1) ∧
      (Hyperbolic 1).inf = 1 / 2 ∧
      ¬ Filter.Tendsto (fun u : ℝ => (Hyperbolic 1).gradient u / u)
        (nhdsWithin 0 {(0 : ℝ)}ᶜ) (nhds ((Hyperbolic 1).inf)) := by
  have hhub : Filter.Tendsto (fun u : ℝ => (Huber 1).gradient u / u)
      (nhdsWithin 0 {(0 : ℝ)}ᶜ) (nhds 2) := by
    have hmem : Set.Ioo (-1 : ℝ) 1 ∈ nhdsWithin (0 : ℝ) {(0 : ℝ)}ᶜ :=
      nhdsWithin_le_nhds (Ioo_mem_nhds (by norm_num) (by norm_num))
    have heq : (fun u : ℝ => (Huber 1).gradient u / u) =ᶠ[nhdsWithin 0 {(0 : ℝ)}ᶜ]
        fun _ => (2 : ℝ) := by
      filter_upwards [hmem, self_mem_nhdsWithin] with u hu hne
      have habs : |u| ≤ 1 := le_of_lt (abs_lt.mpr ⟨hu.1, hu.2⟩)
      show (if |u| ≤ 1 then 2 * u else 2 * 1 * Real.sign u) / u = 2
      rw [if_pos habs, mul_div_assoc, div_self hne, mul_one]
    exact Filter.Tendsto.congr' heq.symm tendsto_const_nhds
  have hhyp : Filter.Tendsto (fun u : ℝ => (Hyperbolic 1).gradient u / u)
      (nhdsWithin 0 {(0 : ℝ)}ᶜ) (nhds 1) := by
    have hc : Filter.Tendsto (fun u : ℝ => Real.sqrt (1 + u ^ 2 / (1 : ℝ) ^ 2))
        (nhds 0) (nhds 1) := by
      have hcont : Continuous fun u : ℝ => Real.sqrt (1 + u ^ 2 / (1 : ℝ) ^ 2) :=
        Real.continuous_sqrt.comp (continuous_const.add ((continuous_pow 2).div_const _))
      have := hcont.tendsto 0
      simpa using this
    have heq : (fun u : ℝ => (Hyperbolic 1).gradient u / u) =ᶠ[nhdsWithin 0 {(0 : ℝ)}ᶜ]
        fun u => Real.sqrt (1 + u ^ 2 / (1 : ℝ) ^ 2) := by
      filter_upwards [self_mem_nhdsWithin] with u hne
      show (u / (1 : ℝ) ^ 2) * Real.sqrt (1 + u ^ 2 / (1 : ℝ) ^ 2) / u =
        Real.sqrt (1 + u ^ 2 / (1 : ℝ) ^ 2)
      have hne' : u ≠ 0 := hne
      field_simp
    exact Filter.Tendsto.congr' heq.symm (hc.mono_left nhdsWithin_le_nhds)
  haveI hnb : (nhdsWithin (0 : ℝ) {(0 : ℝ)}ᶜ).NeBot := by
    have hsub : Set.Ioi (0 : ℝ) ⊆ {(0 : ℝ)}ᶜ := fun x hx =>
      Set.mem_compl_singleton_iff.mpr (ne_of_gt hx)
    have hle : nhdsWithin (0 : ℝ) (Set.Ioi 0) ≤ nhdsWithin 0 {(0 : ℝ)}ᶜ :=
      nhdsWithin_mono 0 hsub
    exact Filter.NeBot.mono inferInstance hle
  have hinfHub : (Huber 1).inf = 1 := rfl
  have hinfHyp : (Hyperbolic 1).inf = 1 / 2 := by
    show (1 : ℝ) / (2 * 1) = 1 / 2
    norm_num
  refine ⟨hhub, hinfHub, ?_, hhyp, hinfHyp, ?_⟩
  · intro h
    have h12 : ((Huber 1).inf : ℝ) = 2 := tendsto_nhds_unique h hhub
    rw [hinfHub] at h12
    norm_num at h12
  · intro h
    have h12 : ((Hyperbolic 1).inf : ℝ) = 1 := tendsto_nhds_unique h hhyp
    rw [hinfHyp] at h12
    norm_num at h12

/-!
Shape semantics of `Criterion` construction and first call.

With a plain-array mean, `Criterion.__init__` (source lines 278-326) only
stores its arguments: no shape is ever inspected, so construction cannot
fail on a shape mismatch.  The first shape-sensitive operation of `value`
or `gradient` is the numpy subtraction `self.operator(point) - self._mean`
(source lines 356 and 363-364), which follows numpy broadcasting: the two
shapes are aligned from the trailing end, a missing dimension counts as 1,
and each aligned pair must be equal or contain a 1, else numpy raises.
The elementwise potential and `np.sum` accept any shape, so the first call
completes exactly when the broadcast of the two shapes is defined.
-/

/-- Numpy broadcast of one aligned dimension pair. -/
def broadcastDim (a b : ℕ) : Option ℕ :=
  if a = b then some a else if a = 1 then some b else if b = 1 then some a
  else none

/-- Numpy broadcast of two shapes given reversed (trailing dimension first);
a missing dimension is treated as 1. -/
def broadcastRev : List ℕ → List ℕ → Option (List ℕ)
  | [], t => some t
  | s, [] => some s
  | a :: s, b :: t =>
    match broadcastDim a b, broadcastRev s t with
    | some d, some r => some (d :: r)
    | _, _ => none

/-- Numpy broadcast of two shapes. -/
def broadcastShape (s t : List ℕ) : Option (List ℕ) :=
  (broadcastRev s.reverse t.reverse).map List.reverse

/-- Shape outcome of the first `Criterion.value` or `Criterion.gradient`
call on an operator output of shape `opShape` and a mean of shape
`meanShape`: `some` when the subtraction `V·x − ω` completes (with the
broadcast shape), `none` when numpy raises a broadcast error. -/
def criterionFirstCall (opShape meanShape : List ℕ) : Option (List ℕ) :=
  broadcastShape opShape meanShape

/-- Dimension of a shape counted from the trailing end, defaulting to 1. -/
def rdim (s : List ℕ) (i : ℕ) : ℕ := s.reverse.getD i 1

/-- Numpy broadcast compatibility: aligned from the trailing end, every
dimension pair is equal or contains a 1. -/
def numpyCompatible (s t : List ℕ) : Prop :=
  ∀ i, i < max s.length t.length →
    rdim s i = rdim t i ∨ rdim s i = 1 ∨ rdim t i = 1

/-- Helper: success of `broadcastDim` in terms of its dimension pair. -/
theorem broadcastDim_isSome (a b : ℕ) :
    (broadcastDim a b).isSome = true ↔ (a = b ∨ a = 1 ∨ b = 1) := by
  unfold broadcastDim
  split_ifs with h1 h2 h3 <;> simp_all

/-- Helper: success of `broadcastRev` in terms of aligned dimensions. -/
theorem broadcastRev_isSome (s : List ℕ) : ∀ t : List ℕ,
    (broadcastRev s t).isSome = true ↔
      ∀ i, i < max s.length t.length →
        s.getD i 1 = t.getD i 1 ∨ s.getD i 1 = 1 ∨ t.getD i 1 = 1 := by
  induction s with
  | nil =>
    intro t
    constructor
    · intro _ i _
      exact Or.inr (Or.inl (List.getD_nil))
    · intro _
      simp [broadcastRev]
  | cons a s ih =>
    intro t
    cases t with
    | nil =>
      constructor
      · intro _ i _
        exact Or.inr (Or.inr (List.getD_nil))
      · intro _
        simp [broadcastRev]
    | cons b t =>
      have hmatch : (broadcastRev (a :: s) (b :: t)).isSome = true ↔
          ((broadcastDim a b).isSome = true ∧
            (broadcastRev s t).isSome = true) := by
        show (match broadcastDim a b, broadcastRev s t with
              | some d, some r => some (d :: r)
              | _, _ => none).isSome = true ↔ _
        cases broadcastDim a b <;> cases broadcastRev s t <;> simp
      rw [hmatch, broadcastDim_isSome, ih t]
      constructor
      · rintro ⟨h0, hrec⟩ i hi
        cases i with
        | zero => simpa using h0
        | succ j =>
          have hj : j < max s.length t.length := by
            simp only [List.length_cons] at hi
            omega
          simpa using hrec j hj
      · intro h
        constructor
        · have h0 := h 0 (by simp only [List.length_cons]; omega)
          simpa using h0
        · intro j hj
          have hj1 : j + 1 < max (a :: s).length (b :: t).length := by
            simp only [List.length_cons]
            omega
          simpa using h (j + 1) hj1

/-- C4 (amended): the first `Criterion` call on mismatched shapes completes
exactly when the two shapes are numpy-broadcast-compatible; construction
itself performs no shape check, so broadcast-compatible mismatches are
silently accepted. -/
theorem criterion_first_call_broadcast (opShape meanShape : List ℕ) :
    (criterionFirstCall opShape meanShape).isSome = true ↔
      numpyCompatible opShape meanShape := by
  unfold criterionFirstCall broadcastShape numpyCompatible rdim
  have hmap : ∀ o : Option (List ℕ),
      (Option.map List.reverse o).isSome = o.isSome := by
    intro o
    cases o <;> rfl
  rw [hmap, broadcastRev_isSome]
  simp [List.length_reverse]

/-- C4 (counterexample): the shapes (2,1) and (2,) differ, yet the first
call completes by silent broadcasting to shape (2,2). -/
theorem criterion_shape_mismatch_broadcasts :
    ([2, 1] : List ℕ) ≠ [2] ∧ criterionFirstCall [2, 1] [2] = some [2, 2] :=
  ⟨by decide, by decide⟩

/-- Witness for the amended C4 statement at the counterexample shapes. -/
theorem criterion_first_call_broadcast_witness :
    (criterionFirstCall [2, 1] [2]).isSome = true ↔
      numpyCompatible [2, 1] [2] :=
  criterion_first_call_broadcast [2, 1] [2]

/-!
Value-level `Criterion` and `QuadCriterion` operations (source lines
351-396 and 402-479).  `operator`, `adjoint` and `normal` stand for the
user-supplied callables; the `vect` reshaping glue is value-preserving and
is omitted.  `norm_mat_major` is kept at matrix type for a subspace of any
dimension k (the source collapses a 1×1 result to a float at the end). -/

/-- Criterion.value: μ · Σ φ(V·x − ω). -/
def Criterion.value {n m : ℕ} (φ : Potential)
    (operator : (Fin n → ℝ) → Fin m → ℝ) (hyper : ℝ) (mean : Fin m → ℝ)
    (x : Fin n → ℝ) : ℝ :=
  hyper * ∑ i, φ.value (operator x i - mean i)

/-- Criterion.gradient: μ · Vᵗ·φ'(V·x − ω). -/
def Criterion.gradient {n m : ℕ} (φ : Potential)
    (operator : (Fin n → ℝ) → Fin m → ℝ)
    (adjoint : (Fin m → ℝ) → Fin n → ℝ) (hyper : ℝ) (mean : Fin m → ℝ)
    (x : Fin n → ℝ) : Fin n → ℝ :=
  hyper • adjoint (fun i => φ.gradient (operator x i - mean i))

/-- Criterion.gr_coeffs: φ'(V·x − ω) / (V·x − ω) elementwise, through the
potential's base-class gr_coeffs. -/
def Criterion.gr_coeffs {n m : ℕ} (φ : Potential)
    (operator : (Fin n → ℝ) → Fin m → ℝ) (mean : Fin m → ℝ)
    (x : Fin n → ℝ) : Fin m → ℝ :=
  φ.gr_coeffs (fun i => operator x i - mean i)

/-- Criterion.norm_mat_major: given vecs W = V·S, the matrix Wᵗ·diag(b)·W
where b are the GR coefficients at the given point. -/
def Criterion.norm_mat_major {n m k : ℕ} (φ : Potential)
    (operator : (Fin n → ℝ) → Fin m → ℝ) (mean : Fin m → ℝ)
    (vecs : Matrix (Fin m) (Fin k) ℝ) (x : Fin n → ℝ) :
    Matrix (Fin k) (Fin k) ℝ :=
  vecs.transpose *
    Matrix.of fun i j => Criterion.gr_coeffs φ operator mean x i * vecs i j

/-- QuadCriterion.mean_t: the value b = Vᵗ·ω precomputed at construction. -/
def QuadCriterion.mean_t {n m : ℕ} (adjoint : (Fin m → ℝ) → Fin n → ℝ)
    (mean : Fin m → ℝ) : Fin n → ℝ :=
  adjoint mean

/-- QuadCriterion.value: μ·‖V·x − ω‖²/2. -/
def QuadCriterion.value {n m : ℕ} (operator : (Fin n → ℝ) → Fin m → ℝ)
    (hyper : ℝ) (mean : Fin m → ℝ) (x : Fin n → ℝ) : ℝ :=
  hyper * (∑ i, (operator x i - mean i) ^ 2) / 2

/-- QuadCriterion.gradient: μ·(normal(x) − mean_t), using the supplied
normal operator and the precomputed mean_t. -/
def QuadCriterion.gradient {n m : ℕ} (normal : (Fin n → ℝ) → Fin n → ℝ)
    (adjoint : (Fin m → ℝ) → Fin n → ℝ) (hyper : ℝ) (mean : Fin m → ℝ)
    (x : Fin n → ℝ) : Fin n → ℝ :=
  hyper • (normal x - QuadCriterion.mean_t adjoint mean)

/-- QuadCriterion.norm_mat_major: Wᵗ·W, with no dependence on the point. -/
def QuadCriterion.norm_mat_major {n m k : ℕ}
    (vecs : Matrix (Fin m) (Fin k) ℝ) (x : Fin n → ℝ) :
    Matrix (Fin k) (Fin k) ℝ :=
  vecs.transpose * vecs

/-- QuadCriterion.gr_coeffs: the constant scalar 1. -/
def QuadCriterion.gr_coeffs {n : ℕ} (x : Fin n → ℝ) : ℝ := 1

/-- C5: when the supplied normal operator agrees with adjoint∘operator, the
QuadCriterion gradient μ·(normal(x) − Vᵗω) coincides with the generic
Criterion gradient for the Square potential with the same operator, adjoint,
hyper and mean; QuadCriterion.norm_mat_major equals the generic majorant
matrix (whose GR coefficients are identically 1) and is independent of the
point; and QuadCriterion.gr_coeffs is the constant 1. -/
theorem quadcriterion_refines_criterion {n m k : ℕ}
    (V : Matrix (Fin m) (Fin n) ℝ) (Vt : Matrix (Fin n) (Fin m) ℝ)
    (normal : (Fin n → ℝ) → Fin n → ℝ) (hyper : ℝ) (mean : Fin m → ℝ)
    (hnormal : ∀ x, normal x = Vt.mulVec (V.mulVec x)) :
    (∀ x, QuadCriterion.gradient normal Vt.mulVec hyper mean x =
        Criterion.gradient Square V.mulVec Vt.mulVec hyper mean x) ∧
    (∀ (W : Matrix (Fin m) (Fin k) ℝ) (x y : Fin n → ℝ),
        QuadCriterion.norm_mat_major W x =
          Criterion.norm_mat_major Square V.mulVec mean W x ∧
        QuadCriterion.norm_mat_major W x =
          QuadCriterion.norm_mat_major W y) ∧
    (∀ x : Fin n → ℝ, QuadCriterion.gr_coeffs x = 1) := by
  refine ⟨?_, ?_, fun x => rfl⟩
  · intro x
    unfold QuadCriterion.gradient QuadCriterion.mean_t Criterion.gradient
    rw [hnormal]
    have hsub : (fun i => Square.gradient (V.mulVec x i - mean i)) =
        V.mulVec x - mean := by
      funext i
      simp [Square]
    rw [hsub, Matrix.mulVec_sub]
  · intro W x y
    have hcoef : (Matrix.of fun i j =>
        Criterion.gr_coeffs Square V.mulVec mean x i * W i j) = W := by
      ext i j
      show Criterion.gr_coeffs Square V.mulVec mean x i * W i j = W i j
      unfold Criterion.gr_coeffs
      rw [square_gr_coeffs, one_mul]
    constructor
    · unfold QuadCriterion.norm_mat_major Criterion.norm_mat_major
      rw [hcoef]
    · rfl

/-- Concrete 1×1 operator for the C5 witness. -/
def wOp : Matrix (Fin 1) (Fin 1) ℝ := 1

/-- Concrete normal operator (adjoint∘operator) for the C5 witness. -/
def wNormal : (Fin 1 → ℝ) → Fin 1 → ℝ := fun y => wOp.mulVec (wOp.mulVec y)

/-- Witness for C5 at concrete 1×1 data, discharging the normal-operator
hypothesis definitionally. -/
theorem quadcriterion_refines_criterion_witness :
    (∀ x, wNormal x = wOp.mulVec (wOp.mulVec x)) ∧
    ((∀ x, QuadCriterion.gradient wNormal wOp.mulVec 1 (fun _ => 0) x =
        Criterion.gradient Square wOp.mulVec wOp.mulVec 1 (fun _ => 0) x) ∧
      (∀ (W : Matrix (Fin 1) (Fin 1) ℝ) (x y : Fin 1 → ℝ),
        QuadCriterion.norm_mat_major W x =
          Criterion.norm_mat_major Square wOp.mulVec (fun _ => 0) W x ∧
        QuadCriterion.norm_mat_major W x =
          QuadCriterion.norm_mat_major W y) ∧
      (∀ x : Fin 1 → ℝ, QuadCriterion.gr_coeffs x = 1)) :=
  ⟨fun x => rfl,
    quadcriterion_refines_criterion wOp wOp wNormal 1 (fun _ => 0)
      (fun x => rfl)⟩

/-!
Duck-typed criterion interface consumed by the solvers: any object with
`operator`, `gradient` and `norm_mat_major` methods (module docstring,
source lines 6-20).  Each criterion has its own operator output length
`m`; vectors are kept flat, the `vect` reshaping glue of source lines
264-266 being value-preserving.  `norm_mat_major` receives the operator
applied to the k subspace vectors and returns a k×k matrix (the source
collapses a 1×1 result to a float, which `mmcg` reads back as a scalar). -/

structure CritLike (n : ℕ) where
  m : ℕ
  operator : (Fin n → ℝ) → Fin m → ℝ
  gradient : (Fin n → ℝ) → Fin n → ℝ
  norm_mat_major : {k : ℕ} → Matrix (Fin m) (Fin k) ℝ → (Fin n → ℝ) →
    Matrix (Fin k) (Fin k) ℝ

/-- Module-level `gradient` helper (source lines 269-272): the sum of the
vectorized criterion gradients (0 for an empty criterion list).  Named
`sumGradient` here because Mathlib already owns the name `gradient`. -/
def sumGradient {n : ℕ} (crits : List (CritLike n)) (point : Fin n → ℝ) :
    Fin n → ℝ :=
  (crits.map fun c => c.gradient point).sum

/-- Euclidean norm of a column vector, `numpy.linalg.norm`. -/
def l2norm {n : ℕ} (v : Fin n → ℝ) : ℝ :=
  Real.sqrt (∑ i, v i ^ 2)

/-- The mmmg iteration loop (source lines 117-145), one recursive call per
`for` iteration; the returned list collects the recorded gradient norms in
order.  `pinv` stands for the external `numpy.linalg.pinv` applied to the
2×2 subspace system.  The parallel zipped lists `crit_list` and
`op_directions` of the source are carried as one list of dependent pairs,
whose first components stay equal to the criterion list. -/
def mmmgLoop {n : ℕ}
    (pinv : Matrix (Fin 2) (Fin 2) ℝ → Matrix (Fin 2) (Fin 2) ℝ)
    (tol : ℝ) :
    ℕ → (Fin n → ℝ) → (Fin n → ℝ) → (Fin 2 → ℝ) →
      List ((c : CritLike n) × Matrix (Fin c.m) (Fin 2) ℝ) →
      (Fin n → ℝ) × List ℝ
  | 0, point, _, _, _ => (point, [])
  | fuel + 1, point, move, step, pairs =>
    let grad := sumGradient (pairs.map fun p => p.1) point
    if l2norm grad < n * tol then (point, [l2norm grad])
    else
      let directions : Matrix (Fin n) (Fin 2) ℝ :=
        Matrix.of fun i j => if j = 0 then -grad i else move i
      let pairs2 : List ((c : CritLike n) × Matrix (Fin c.m) (Fin 2) ℝ) :=
        pairs.map fun p =>
          ⟨p.1, Matrix.of fun i j =>
            if j = 0 then p.1.operator grad i else ∑ l, p.2 i l * step l⟩
      let step2 : Fin 2 → ℝ := fun j =>
        -∑ l, pinv ((pairs2.map fun p => p.1.norm_mat_major p.2 point).sum) j l *
          (∑ i, directions i l * grad i)
      let move2 : Fin n → ℝ := fun i => ∑ j, directions i j * step2 j
      let r := mmmgLoop pinv tol fuel (point + move2) move2 step2 pairs2
      (r.1, l2norm grad :: r.2)

/-- The mmmg solver (source lines 37-145): the initial previous move is 0,
the initial step is ones(2), each cached operator-applied-direction matrix
is operator(0) tiled twice; the loop runs for at most `maxIter` iterations
and the final point is returned reshaped to init's shape, together with the
recorded gradient norms. -/
def mmmg (pinv : Matrix (Fin 2) (Fin 2) ℝ → Matrix (Fin 2) (Fin 2) ℝ)
    (shape : List ℕ) (crits : List (CritLike shape.prod))
    (init : Fin shape.prod → ℝ) (tol : ℝ) (maxIter : ℕ) :
    (List ℕ × (Fin shape.prod → ℝ)) × List ℝ :=
  let r := mmmgLoop pinv tol maxIter init 0 (fun _ => 1)
    (crits.map fun c => ⟨c, Matrix.of fun i _ => c.operator 0 i⟩)
  ((shape, r.1), r.2)

/-- Helper: the mmmg loop records at most one norm per remaining
iteration. -/
theorem mmmgLoop_length_le {n : ℕ}
    (pinv : Matrix (Fin 2) (Fin 2) ℝ → Matrix (Fin 2) (Fin 2) ℝ) (tol : ℝ) :
    ∀ (fuel : ℕ) (point move : Fin n → ℝ) (step : Fin 2 → ℝ)
      (pairs : List ((c : CritLike n) × Matrix (Fin c.m) (Fin 2) ℝ)),
      (mmmgLoop pinv tol fuel point move step pairs).2.length ≤ fuel := by
  intro fuel
  induction fuel with
  | zero =>
    intro point move step pairs
    simp [mmmgLoop]
  | succ fuel ih =>
    intro point move step pairs
    simp only [mmmgLoop]
    split_ifs with hstop
    · simp
    · simp only [List.length_cons]
      exact Nat.succ_le_succ (ih _ _ _ _)

/-- Helper: the mmmg loop records at least one norm when fuel remains. -/
theorem mmmgLoop_length_pos {n : ℕ}
    (pinv : Matrix (Fin 2) (Fin 2) ℝ → Matrix (Fin 2) (Fin 2) ℝ) (tol : ℝ)
    (fuel : ℕ) (point move : Fin n → ℝ) (step : Fin 2 → ℝ)
    (pairs : List ((c : CritLike n) × Matrix (Fin c.m) (Fin 2) ℝ))
    (hfuel : 1 ≤ fuel) :
    1 ≤ (mmmgLoop pinv tol fuel point move step pairs).2.length := by
  obtain ⟨fuel, rfl⟩ : ∃ f, fuel = f + 1 := ⟨fuel - 1, by omega⟩
  simp only [mmmgLoop]
  split_ifs with hstop
  · simp
  · simp

/-- Helper: every recorded norm of the mmmg loop except the last one failed
the stopping test. -/
theorem mmmgLoop_not_lt {n : ℕ}
    (pinv : Matrix (Fin 2) (Fin 2) ℝ → Matrix (Fin 2) (Fin 2) ℝ) (tol : ℝ) :
    ∀ (fuel : ℕ) (point move : Fin n → ℝ) (step : Fin 2 → ℝ)
      (pairs : List ((c : CritLike n) × Matrix (Fin c.m) (Fin 2) ℝ))
      (i : ℕ), i + 1 < (mmmgLoop pinv tol fuel point move step pairs).2.length →
      ¬ ((mmmgLoop pinv tol fuel point move step pairs).2.getD i 0 <
        n * tol) := by
  intro fuel
  induction fuel with
  | zero =>
    intro point move step pairs i hi
    simp [mmmgLoop] at hi
  | succ fuel ih =>
    intro point move step pairs i
    simp only [mmmgLoop]
    split_ifs with hstop
    · intro hi
      simp at hi
    · intro hi
      cases i with
      | zero =>
        simpa using hstop
      | succ j =>
        simp only [List.getD_cons_succ]
        refine ih _ _ _ _ j ?_
        simp only [List.length_cons] at hi
        omega

/-- Helper: when the mmmg loop exits before its fuel runs out, the last
recorded norm passed the stopping test. -/
theorem mmmgLoop_early_exit {n : ℕ}
    (pinv : Matrix (Fin 2) (Fin 2) ℝ → Matrix (Fin 2) (Fin 2) ℝ) (tol : ℝ) :
    ∀ (fuel : ℕ) (point move : Fin n → ℝ) (step : Fin 2 → ℝ)
      (pairs : List ((c : CritLike n) × Matrix (Fin c.m) (Fin 2) ℝ)),
      (mmmgLoop pinv tol fuel point move step pairs).2.length < fuel →
      (mmmgLoop pinv tol fuel point move step pairs).2 ≠ [] ∧
      (mmmgLoop pinv tol fuel point move step pairs).2.getD
        ((mmmgLoop pinv tol fuel point move step pairs).2.length - 1) 0 <
        n * tol := by
  intro fuel
  induction fuel with
  | zero =>
    intro point move step pairs h
    simp [mmmgLoop] at h
  | succ fuel ih =>
    intro point move step pairs
    simp only [mmmgLoop]
    split_ifs with hstop
    · intro _
      refine ⟨by simp, ?_⟩
      simpa using hstop
    · intro hlen
      simp only [List.length_cons] at hlen
      obtain ⟨hne, hlast⟩ := ih _ _ _ _ (Nat.lt_of_succ_lt_succ hlen)
      refine ⟨by simp, ?_⟩
      rcases hr : (mmmgLoop pinv tol fuel _ _ _ _).2 with _ | ⟨a, as⟩
      · exact absurd hr hne
      · rw [hr] at hlast
        simp only [hr, List.length_cons, Nat.add_sub_cancel,
          List.getD_cons_succ]
        simpa using hlast

/-- C6: the mmmg trace records one gradient norm per iteration begun and
the loop exits as soon as the recorded norm is strictly below
init.size·tol: every non-final entry fails the strict test, and an exit
before max_iter means the final entry passed it; the trace length is at
most max_iter (hence at most max_iter + 1) and is at least 1 when
max_iter ≥ 1; the minimizer is returned with the shape of init. -/
theorem mmmg_trace (pinv : Matrix (Fin 2) (Fin 2) ℝ → Matrix (Fin 2) (Fin 2) ℝ)
    (shape : List ℕ) (crits : List (CritLike shape.prod))
    (init : Fin shape.prod → ℝ) (tol : ℝ) (maxIter : ℕ) :
    (mmmg pinv shape crits init tol maxIter).1.1 = shape ∧
    (mmmg pinv shape crits init tol maxIter).2.length ≤ maxIter ∧
    (mmmg pinv shape crits init tol maxIter).2.length ≤ maxIter + 1 ∧
    (1 ≤ maxIter → 1 ≤ (mmmg pinv shape crits init tol maxIter).2.length) ∧
    (∀ i, i + 1 < (mmmg pinv shape crits init tol maxIter).2.length →
      ¬ ((mmmg pinv shape crits init tol maxIter).2.getD i 0 <
        shape.prod * tol)) ∧
    ((mmmg pinv shape crits init tol maxIter).2.length < maxIter →
      (mmmg pinv shape crits init tol maxIter).2 ≠ [] ∧
      (mmmg pinv shape crits init tol maxIter).2.getD
        ((mmmg pinv shape crits init tol maxIter).2.length - 1) 0 <
        shape.prod * tol) := by
  refine ⟨rfl, ?_, ?_, ?_, ?_, ?_⟩
  · exact mmmgLoop_length_le pinv tol maxIter init 0 (fun _ => 1) _
  · exact le_trans
      (mmmgLoop_length_le pinv tol maxIter init 0 (fun _ => 1) _)
      (Nat.le_succ _)
  · intro h
    exact mmmgLoop_length_pos pinv tol maxIter init 0 (fun _ => 1) _ h
  · intro i hi
    exact mmmgLoop_not_lt pinv tol maxIter init 0 (fun _ => 1) _ i hi
  · intro h
    exact mmmgLoop_early_exit pinv tol maxIter init 0 (fun _ => 1) _ h

/-- Witness for C6 at concrete data: identity pseudo-inverse, shape (1,),
no criteria, zero start, tol 1, two iterations. -/
theorem mmmg_trace_witness :
    (mmmg id [1] [] (fun _ => (0 : ℝ)) 1 2).1.1 = [1] ∧
    (mmmg id [1] [] (fun _ => (0 : ℝ)) 1 2).2.length ≤ 2 ∧
    (mmmg id [1] [] (fun _ => (0 : ℝ)) 1 2).2.length ≤ 2 + 1 ∧
    (1 ≤ 2 → 1 ≤ (mmmg id [1] [] (fun _ => (0 : ℝ)) 1 2).2.length) ∧
    (∀ i, i + 1 < (mmmg id [1] [] (fun _ => (0 : ℝ)) 1 2).2.length →
      ¬ ((mmmg id [1] [] (fun _ => (0 : ℝ)) 1 2).2.getD i 0 <
        ([1] : List ℕ).prod * 1)) ∧
    ((mmmg id [1] [] (fun _ => (0 : ℝ)) 1 2).2.length < 2 →
      (mmmg id [1] [] (fun _ => (0 : ℝ)) 1 2).2 ≠ [] ∧
      (mmmg id [1] [] (fun _ => (0 : ℝ)) 1 2).2.getD
        ((mmmg id [1] [] (fun _ => (0 : ℝ)) 1 2).2.length - 1) 0 <
        ([1] : List ℕ).prod * 1) :=
  mmmg_trace id [1] [] (fun _ => 0) 1 2

/-- C10: with an empty criterion list, a positive unknown size, a positive
tolerance and at least one allowed iteration, mmmg performs exactly one
iteration: the summed gradient over no criteria is 0, its norm 0 passes the
stopping test before any move is applied, so the returned array holds the
values of init (tagged with init's shape) and the trace is [0]. -/
theorem mmmg_empty_crit_list
    (pinv : Matrix (Fin 2) (Fin 2) ℝ → Matrix (Fin 2) (Fin 2) ℝ)
    (shape : List ℕ) (init : Fin shape.prod → ℝ) (tol : ℝ) (maxIter : ℕ)
    (hn : 0 < shape.prod) (htol : 0 < tol) (hiter : 1 ≤ maxIter) :
    mmmg pinv shape [] init tol maxIter = ((shape, init), [0]) := by
  obtain ⟨fuel, rfl⟩ : ∃ f, maxIter = f + 1 := ⟨maxIter - 1, by omega⟩
  have hgrad : sumGradient
      (List.map (fun p => p.1)
        ([] : List ((c : CritLike shape.prod) × Matrix (Fin c.m) (Fin 2) ℝ)))
      init = 0 := rfl
  have hpos : (0 : ℝ) < (shape.prod : ℝ) * tol :=
    mul_pos (by exact_mod_cast hn) htol
  show ((shape, (mmmgLoop pinv tol (fuel + 1) init 0 (fun _ => 1) []).1),
      (mmmgLoop pinv tol (fuel + 1) init 0 (fun _ => 1) []).2) =
    ((shape, init), [0])
  simp only [mmmgLoop, hgrad]
  have hl : l2norm (0 : Fin shape.prod → ℝ) = 0 := by
    simp [l2norm]
  rw [hl, if_pos hpos]

/-- Witness for C10: size 1 > 0, tol 1 > 0, one allowed iteration; mmmg
returns init's values with shape (1,) and the trace [0]. -/
theorem mmmg_empty_crit_list_witness :
    0 < ([1] : List ℕ).prod ∧ (0 : ℝ) < 1 ∧ 1 ≤ 1 ∧
      mmmg id [1] [] (fun _ => (3 : ℝ)) 1 1 = (([1], fun _ => (3 : ℝ)), [0]) :=
  ⟨by decide, by norm_num, le_refl 1,
    mmmg_empty_crit_list id [1] (fun _ => 3) 1 1 (by decide) (by norm_num)
      (le_refl 1)⟩

/-- The scalar curvature Σₖ norm_mat_major(Vₖ·dir, x) of an mmcg iteration
(source lines 230-238): each criterion's norm_mat_major of the single
operator-applied direction column is a 1×1 majorant matrix, read back as a
float. -/
def mmcgCurv {n : ℕ} (crits : List (CritLike n))
    (direction point : Fin n → ℝ) : ℝ :=
  (crits.map fun c =>
    c.norm_mat_major (Matrix.of fun i (_ : Fin 1) => c.operator direction i)
      point 0 0).sum

/-- Inner product xᵗ·y of two column vectors. -/
def innerProd {n : ℕ} (u v : Fin n → ℝ) : ℝ := ∑ i, u i * v i

/-- The mmcg point update (source lines 234-240): step = dirᵗ·r divided by
the scalar curvature, then x + step·dir. -/
def mmcgPoint {n : ℕ} (crits : List (CritLike n))
    (point residual direction : Fin n → ℝ) : Fin n → ℝ :=
  point +
    (innerProd direction residual / mmcgCurv crits direction point) • direction

/-- The mmcg iteration loop (source lines 228-258), one recursive call per
`for` iteration; the returned list collects the norms recorded inside the
loop (the norm of the initial residual is prepended by `mmcg` itself).
After the point and residual update and the stopping test, the conjugacy
block computes delta_mid = r₂ᵗ·sec (old sec), the new sec = precond(r₂),
the new delta = r₂ᵗ·sec₂, and branches on the sign of
β = (delta₂ − delta_mid)/delta_old for the next direction. -/
def mmcgLoop {n : ℕ} (precond : (Fin n → ℝ) → Fin n → ℝ)
    (crits : List (CritLike n)) (tol : ℝ) :
    ℕ → (Fin n → ℝ) → (Fin n → ℝ) → (Fin n → ℝ) → (Fin n → ℝ) → ℝ →
      (Fin n → ℝ) × List ℝ
  | 0, point, _, _, _, _ => (point, [])
  | fuel + 1, point, residual, sec, direction, delta =>
    let point2 := mmcgPoint crits point residual direction
    let residual2 := -sumGradient crits point2
    if l2norm residual2 < n * tol then (point2, [l2norm residual2])
    else
      let deltaMid := innerProd residual2 sec
      let sec2 := precond residual2
      let delta2 := innerProd residual2 sec2
      let direction2 :=
        if 0 ≤ (delta2 - deltaMid) / delta then
          sec2 + ((delta2 - deltaMid) / delta) • direction
        else sec2
      let r := mmcgLoop precond crits tol fuel point2 residual2 sec2
        direction2 delta2
      (r.1, l2norm residual2 :: r.2)

/-- The mmcg solver (source lines 148-260): residual −∇J(init), sec the
preconditioned residual, initial direction sec, delta = rᵗ·sec; the norm of
the initial residual opens the trace, then the loop runs for at most
maxIter iterations; the final point is returned with init's shape. -/
def mmcg (shape : List ℕ)
    (precond : (Fin shape.prod → ℝ) → Fin shape.prod → ℝ)
    (crits : List (CritLike shape.prod)) (init : Fin shape.prod → ℝ)
    (tol : ℝ) (maxIter : ℕ) : (List ℕ × (Fin shape.prod → ℝ)) × List ℝ :=
  let residual := -sumGradient crits init
  let sec := precond residual
  let r := mmcgLoop precond crits tol maxIter init residual sec sec
    (innerProd residual sec)
  ((shape, r.1), l2norm residual :: r.2)

/-- C7: in every mmcg iteration that does not stop (with a nonzero previous
delta, so that real division models the numpy scalar division), the loop
records the new residual norm and continues with the next direction equal
to sec₂ + β·direction when β ≥ 0 and to the reset direction sec₂ when
β < 0, where sec₂ = precond(r₂) is the new preconditioned residual and
β = (delta₂ − delta_mid)/delta_old with delta₂ = r₂ᵗ·sec₂,
delta_mid = r₂ᵗ·sec (old preconditioned residual) and delta_old the
previous delta; no other update path (such as a periodic restart) exists. -/
theorem mmcg_conjugate_direction {n : ℕ}
    (precond : (Fin n → ℝ) → Fin n → ℝ) (crits : List (CritLike n))
    (tol : ℝ) (fuel : ℕ) (point residual sec direction : Fin n → ℝ)
    (delta : ℝ)
    (hstop : ¬ (l2norm
      (-sumGradient crits (mmcgPoint crits point residual direction)) <
      n * tol))
    (hdelta : delta ≠ 0) :
    mmcgLoop precond crits tol (fuel + 1) point residual sec direction delta =
      (fun r => (r.1,
          l2norm (-sumGradient crits (mmcgPoint crits point residual direction))
            :: r.2))
        (mmcgLoop precond crits tol fuel
          (mmcgPoint crits point residual direction)
          (-sumGradient crits (mmcgPoint crits point residual direction))
          (precond
            (-sumGradient crits (mmcgPoint crits point residual direction)))
          (if 0 ≤ (innerProd
                (-sumGradient crits (mmcgPoint crits point residual direction))
                (precond (-sumGradient crits
                  (mmcgPoint crits point residual direction))) -
              innerProd
                (-sumGradient crits (mmcgPoint crits point residual direction))
                sec) / delta then
            precond
              (-sumGradient crits (mmcgPoint crits point residual direction)) +
              ((innerProd
                  (-sumGradient crits
                    (mmcgPoint crits point residual direction))
                  (precond (-sumGradient crits
                    (mmcgPoint crits point residual direction))) -
                innerProd
                  (-sumGradient crits
                    (mmcgPoint crits point residual direction))
                  sec) / delta) • direction
          else
            precond
              (-sumGradient crits (mmcgPoint crits point residual direction)))
          (innerProd
            (-sumGradient crits (mmcgPoint crits point residual direction))
            (precond
              (-sumGradient crits (mmcgPoint crits point residual direction))))) := by
  simp only [mmcgLoop]
  rw [if_neg hstop]

/-- Concrete one-dimensional criterion for the C7 witness: identity
operator, constant unit gradient, and Wᵗ·W majorant matrix. -/
def wCrit : CritLike 1 where
  m := 1
  operator := fun v => v
  gradient := fun _ _ => 1
  norm_mat_major := fun W _ => Matrix.of fun a b => ∑ i, W i a * W i b

/-- Witness for C7 at concrete data: one criterion with constant gradient,
identity preconditioner, tol 1/2, so the first iteration does not stop and
the previous delta is 1 ≠ 0. -/
theorem mmcg_conjugate_direction_witness :
    (¬ (l2norm (-sumGradient [wCrit] (mmcgPoint [wCrit] (fun _ => (0 : ℝ)) (fun _ => 1) (fun _ => 1))) < ((1 : ℕ) : ℝ) * (1 / 2))) ∧
    ((1 : ℝ) ≠ 0) ∧
    (mmcgLoop id [wCrit] (1 / 2) (0 + 1) (fun _ => (0 : ℝ)) (fun _ => 1)
        (fun _ => 1) (fun _ => 1) 1 =
      (fun r => (r.1, l2norm (-sumGradient [wCrit] (mmcgPoint [wCrit] (fun _ => (0 : ℝ)) (fun _ => 1) (fun _ => 1))) :: r.2))
        (mmcgLoop id [wCrit] (1 / 2) 0
          (mmcgPoint [wCrit] (fun _ => (0 : ℝ)) (fun _ => 1) (fun _ => 1))
          (-sumGradient [wCrit] (mmcgPoint [wCrit] (fun _ => (0 : ℝ)) (fun _ => 1) (fun _ => 1)))
          (id (-sumGradient [wCrit] (mmcgPoint [wCrit] (fun _ => (0 : ℝ)) (fun _ => 1) (fun _ => 1))))
          (if 0 ≤ (innerProd (-sumGradient [wCrit] (mmcgPoint [wCrit] (fun _ => (0 : ℝ)) (fun _ => 1) (fun _ => 1))) (id (-sumGradient [wCrit] (mmcgPoint [wCrit] (fun _ => (0 : ℝ)) (fun _ => 1) (fun _ => 1)))) - innerProd (-sumGradient [wCrit] (mmcgPoint [wCrit] (fun _ => (0 : ℝ)) (fun _ => 1) (fun _ => 1))) (fun _ => 1)) / 1 then
            id (-sumGradient [wCrit] (mmcgPoint [wCrit] (fun _ => (0 : ℝ)) (fun _ => 1) (fun _ => 1))) + ((innerProd (-sumGradient [wCrit] (mmcgPoint [wCrit] (fun _ => (0 : ℝ)) (fun _ => 1) (fun _ => 1))) (id (-sumGradient [wCrit] (mmcgPoint [wCrit] (fun _ => (0 : ℝ)) (fun _ => 1) (fun _ => 1)))) - innerProd (-sumGradient [wCrit] (mmcgPoint [wCrit] (fun _ => (0 : ℝ)) (fun _ => 1) (fun _ => 1))) (fun _ => 1)) / 1) • ((fun _ => 1) : Fin 1 → ℝ)
          else id (-sumGradient [wCrit] (mmcgPoint [wCrit] (fun _ => (0 : ℝ)) (fun _ => 1) (fun _ => 1))))
          (innerProd (-sumGradient [wCrit] (mmcgPoint [wCrit] (fun _ => (0 : ℝ)) (fun _ => 1) (fun _ => 1))) (id (-sumGradient [wCrit] (mmcgPoint [wCrit] (fun _ => (0 : ℝ)) (fun _ => 1) (fun _ => 1))))))) := by
  have hg : (-sumGradient [wCrit] (mmcgPoint [wCrit] (fun _ => (0 : ℝ)) (fun _ => 1) (fun _ => 1))) = fun _ : Fin 1 => (-1 : ℝ) := by
    funext i
    simp [sumGradient, wCrit]
  have hstop : ¬ (l2norm (-sumGradient [wCrit] (mmcgPoint [wCrit] (fun _ => (0 : ℝ)) (fun _ => 1) (fun _ => 1))) < ((1 : ℕ) : ℝ) * (1 / 2)) := by
    rw [hg]
    have hl : l2norm (fun _ : Fin 1 => (-1 : ℝ)) = 1 := by
      simp [l2norm, Fin.sum_univ_one]
    rw [hl]
    norm_num
  exact ⟨hstop, one_ne_zero,
    mmcg_conjugate_direction id [wCrit] (1 / 2) 0 (fun _ => 0) (fun _ => 1)
      (fun _ => 1) (fun _ => 1) 1 hstop one_ne_zero⟩
